import Mathlib

/-!
Verification of the pdb-sdk core against its specification

A shallow embedding, over `List Nat` byte strings, of the parts of the
`pdb-sdk` PDB reader/writer that the specification's checkable claims talk
about:

* the CodeView record framing codec (`src/codeview.rs`, `PrefixedRecord`),
* the numeric-leaf integer codec (`src/lib.rs`, `Integer`),
* the v1 name hash (`src/hash.rs`, `hash_v1`),
* the `/names` strings-stream bucket insertion (`src/strings.rs`),
* the named-streams table of the Info stream
  (`src/builders.rs` `InfoBuilder::commit`, `src/info.rs` `NamedStreams`),
* the globals/publics symbol-map bucket sort (`src/symbol_map.rs`,
  `src/utils.rs`),
* the MSF block-count formula of `PdbBuilder::commit` (`src/builders.rs`),
* the MSF stream writer's FPM-slot skipping (`src/msf.rs`),
* the MSF logical stream `seek` (`src/msf.rs`).

Bytes are naturals below 256; machine integers are naturals (or integers)
with explicit `% 2^w` where wrap-around matters.  Fallible decoding returns
`Except DecodeErr`; the outcome of a Rust panic (`todo!`, arithmetic
underflow, out-of-bounds slice indexing) is modelled by the distinguished
error `DecodeErr.panic`, kept separate from errors that the Rust code
returns to its caller as `Err` values.
-/

namespace PdbSdk

/-- Error outcomes of decoding.  `.framing` is the `invalid padding byte`
error of `PrefixedRecord::decode`; `.eof` is an underlying io error
(`read_exact` past the end of the window); `.inner` is a failure of the
inner record codec; `.panic` marks abnormal termination of the Rust code
(a `todo!` or an out-of-bounds slice index), which is not an error value
returned to the caller. -/
inductive DecodeErr where
  | framing
  | eof
  | inner
  | panic
deriving DecidableEq, Repr

instance {ε α : Type} [DecidableEq ε] [DecidableEq α] : DecidableEq (Except ε α) := fun x y =>
  match x, y with
  | .ok a, .ok b =>
    if h : a = b then .isTrue (congrArg Except.ok h)
    else .isFalse fun hc => h (Except.ok.inj hc)
  | .error a, .error b =>
    if h : a = b then .isTrue (congrArg Except.error h)
    else .isFalse fun hc => h (Except.error.inj hc)
  | .ok _, .error _ => .isFalse fun hc => Except.noConfusion hc
  | .error _, .ok _ => .isFalse fun hc => Except.noConfusion hc

/-- Function `align_to` from `src/utils.rs`: round `val` up to a multiple of
`align`. -/
def alignTo (val a : Nat) : Nat := (val + a - 1) / a * a

/-- The two little-endian bytes of `n` truncated to a `u16`, as emitted by
`u16::encode` with `Endian::Little`. -/
def u16le (n : Nat) : List Nat := [n % 256, n / 256 % 256]

/-- The `w` little-endian bytes of `n` (the `to_le_bytes` pattern used by all
fixed-width integer codecs in the crate). -/
def leBytes : Nat → Nat → List Nat
  | 0, _ => []
  | w + 1, n => n % 256 :: leBytes w (n / 256)

/-- Read `w` little-endian bytes off the front of a byte string, returning
the value and the unconsumed tail; `.eof` if the string is too short. -/
def readLe (w : Nat) (s : List Nat) : Except DecodeErr (Nat × List Nat) :=
  match w, s with
  | 0, s => .ok (0, s)
  | _ + 1, [] => .error .eof
  | w + 1, b :: rest => do
    let (hi, tail) ← readLe w rest
    .ok (b + 256 * hi, tail)

theorem leBytes_length (w n : Nat) : (leBytes w n).length = w := by
  induction w generalizing n with
  | zero => rfl
  | succ w ih => simp [leBytes, ih]

theorem readLe_leBytes (w n : Nat) (tail : List Nat) (h : n < 2 ^ (8 * w)) :
    readLe w (leBytes w n ++ tail) = .ok (n, tail) := by
  induction w generalizing n with
  | zero =>
    simp only [Nat.mul_zero, pow_zero, Nat.lt_one_iff] at h
    simp [leBytes, readLe, h]
  | succ w ih =>
    have hdiv : n / 256 < 2 ^ (8 * w) := by
      apply Nat.div_lt_of_lt_mul
      calc n < 2 ^ (8 * (w + 1)) := h
        _ = 2 ^ (8 * w) * 256 := by ring
        _ = 256 * 2 ^ (8 * w) := by ring
    show readLe (w + 1) (n % 256 :: (leBytes w (n / 256) ++ tail)) = .ok (n, tail)
    simp only [readLe, ih (n / 256) hdiv]
    show Except.ok (n % 256 + 256 * (n / 256), tail) = Except.ok (n, tail)
    rw [Nat.mod_add_div]

/-! ## The v1 name hash (`src/hash.rs`, `hash_v1`) -/

/-- The `while let [b1, b2, b3, b4, tail @ ..]` loop of `hash_v1`
(src/hash.rs:103-106): XOR successive 4-byte little-endian words into the
accumulator, returning the accumulator and the at-most-3-byte remainder. -/
def hashWords (h : Nat) : List Nat → Nat × List Nat
  | b1 :: b2 :: b3 :: b4 :: tail =>
    hashWords (h ^^^ (b1 + 256 * b2 + 65536 * b3 + 16777216 * b4)) tail
  | s => (h, s)

/-- Function `hash_v1` from src/hash.rs:99-118: word fold, then a trailing
half-word, then a trailing byte, then `|= 0x20202020` and two
XOR-shifts. -/
def hashV1 (bytes : List Nat) : Nat :=
  let (h, s) := hashWords 0 bytes
  let (h, s) : Nat × List Nat :=
    match s with
    | b1 :: b2 :: tail => (h ^^^ (b1 + 256 * b2), tail)
    | s => (h, s)
  let h :=
    match s with
    | [b] => h ^^^ b
    | _ => h
  let h := h ||| 0x20202020
  let h := h ^^^ (h >>> 11)
  h ^^^ (h >>> 16)

/-- The `i`-th 4-byte little-endian word of `s` (indices `4i .. 4i+3`),
used by the claim-level description of the hash. -/
def wordAt (s : List Nat) (i : Nat) : Nat :=
  s.getD (4 * i) 0 + 256 * s.getD (4 * i + 1) 0 + 65536 * s.getD (4 * i + 2) 0
    + 16777216 * s.getD (4 * i + 3) 0

/-- XOR of all complete 4-byte little-endian words of `s`. -/
def wordsXor (s : List Nat) : Nat :=
  (List.range (s.length / 4)).foldl (fun h i => h ^^^ wordAt s i) 0

/-- Claim-level formulation of `hash_v1` (spec §4.4): XOR-fold the
complete 4-byte little-endian words, then any trailing 2-byte half-word,
then any trailing byte; OR with `0x20202020`; XOR with the right shift by
11; XOR with the right shift by 16. -/
def hashV1Spec (s : List Nat) : Nat :=
  let q := s.length / 4
  let r := s.length % 4
  let rest := s.drop (4 * q)
  let h := wordsXor s
  let h := if 2 ≤ r then h ^^^ (rest.getD 0 0 + 256 * rest.getD 1 0) else h
  let h := if r % 2 = 1 then h ^^^ rest.getD (r - 1) 0 else h
  let h := h ||| 0x20202020
  let h := h ^^^ (h >>> 11)
  h ^^^ (h >>> 16)

theorem foldl_xor_init (g : Nat → Nat) (l : List Nat) (a : Nat) :
    l.foldl (fun h i => h ^^^ g i) a = a ^^^ l.foldl (fun h i => h ^^^ g i) 0 := by
  induction l generalizing a with
  | nil => simp
  | cons x xs ih =>
    simp only [List.foldl_cons]
    rw [ih (a ^^^ g x), ih (0 ^^^ g x)]
    simp [Nat.xor_assoc]

theorem getD_cons4 (b1 b2 b3 b4 : Nat) (t : List Nat) (k : Nat) :
    (b1 :: b2 :: b3 :: b4 :: t).getD (k + 4) 0 = t.getD k 0 := by
  have hk : k + 4 = k + 1 + 1 + 1 + 1 := by omega
  rw [hk]
  simp [List.getD_cons_succ]

theorem drop_cons4 (b1 b2 b3 b4 : Nat) (t : List Nat) (k : Nat) :
    (b1 :: b2 :: b3 :: b4 :: t).drop (k + 4) = t.drop k := by
  have hk : k + 4 = k + 1 + 1 + 1 + 1 := by omega
  rw [hk]
  simp [List.drop_succ_cons]

theorem wordAt_cons4 (b1 b2 b3 b4 : Nat) (t : List Nat) (i : Nat) :
    wordAt (b1 :: b2 :: b3 :: b4 :: t) (i + 1) = wordAt t i := by
  have h0 : 4 * (i + 1) = 4 * i + 4 := by ring
  have h1 : 4 * (i + 1) + 1 = 4 * i + 1 + 4 := by ring
  have h2 : 4 * (i + 1) + 2 = 4 * i + 2 + 4 := by ring
  have h3 : 4 * (i + 1) + 3 = 4 * i + 3 + 4 := by ring
  simp only [wordAt, h0, h1, h2, h3, getD_cons4]

theorem wordsXor_cons4 (b1 b2 b3 b4 : Nat) (t : List Nat) :
    wordsXor (b1 :: b2 :: b3 :: b4 :: t)
      = (b1 + 256 * b2 + 65536 * b3 + 16777216 * b4) ^^^ wordsXor t := by
  have hlen : (b1 :: b2 :: b3 :: b4 :: t).length / 4 = t.length / 4 + 1 := by
    simp only [List.length_cons]
    omega
  have hfun : (fun (h i : Nat) => h ^^^ wordAt (b1 :: b2 :: b3 :: b4 :: t) (Nat.succ i))
      = fun h i => h ^^^ wordAt t i := by
    funext h i
    rw [Nat.succ_eq_add_one, wordAt_cons4]
  have hw0 : wordAt (b1 :: b2 :: b3 :: b4 :: t) 0
      = b1 + 256 * b2 + 65536 * b3 + 16777216 * b4 := by
    simp [wordAt]
  simp only [wordsXor, hlen, List.range_succ_eq_map, List.foldl_cons, List.foldl_map, hfun,
    Nat.zero_xor, hw0]
  rw [foldl_xor_init (fun i => wordAt t i)]

/-- The word loop of `hash_v1` XORs exactly the complete 4-byte words and
leaves the `length % 4` trailing bytes. -/
theorem hashWords_eq : ∀ (s : List Nat) (h : Nat),
    hashWords h s = (h ^^^ wordsXor s, s.drop (4 * (s.length / 4)))
  | b1 :: b2 :: b3 :: b4 :: t, h => by
    show hashWords (h ^^^ (b1 + 256 * b2 + 65536 * b3 + 16777216 * b4)) t = _
    rw [hashWords_eq t]
    have hlen : (b1 :: b2 :: b3 :: b4 :: t).length / 4 = t.length / 4 + 1 := by
      simp only [List.length_cons]
      omega
    rw [wordsXor_cons4, hlen]
    have hdrop : 4 * (t.length / 4 + 1) = 4 * (t.length / 4) + 4 := by ring
    rw [hdrop, drop_cons4, Nat.xor_assoc]
  | [], h => by simp [hashWords, wordsXor]
  | [a], h => by simp [hashWords, wordsXor]
  | [a, b], h => by simp [hashWords, wordsXor]
  | [a, b, c], h => by simp [hashWords, wordsXor]

/-- The translated `hash_v1` agrees with the claim-level description for
every byte string. -/
theorem hashV1_eq_spec (s : List Nat) : hashV1 s = hashV1Spec s := by
  unfold hashV1 hashV1Spec
  rw [hashWords_eq s 0]
  simp only [Nat.zero_xor]
  have hrem : (s.drop (4 * (s.length / 4))).length = s.length % 4 := by
    rw [List.length_drop]
    omega
  rcases hd : s.drop (4 * (s.length / 4)) with _ | ⟨a, _ | ⟨b, _ | ⟨c, _ | ⟨d, t⟩⟩⟩⟩ <;>
      rw [hd] at hrem
  · rw [← hrem]
    simp
  · rw [← hrem]
    simp
  · rw [← hrem]
    simp
  · rw [← hrem]
    simp
  · exfalso
    simp only [List.length_cons] at hrem
    omega

example : hashV1 [0x41, 0x6C, 0x70, 0x68, 0x61] = 0x687d0a50 := by decide

/-- C6, counterexample: `hash_v1` of the empty string is not `0`: the
accumulator is `0` when the `|= 0x20202020` step runs, and the two
XOR-shifts leave `0x20240400`. -/
theorem c6_counterexample : ¬ hashV1 [] = 0 := by decide

/-- C6 (amended): for every byte string `s`, `hash_v1 s` is computed by
XOR-folding successive 4-byte little-endian words, then any trailing
2-byte half-word, then any trailing byte, then OR-ing with `0x20202020`,
then XOR-ing with the right shift by 11, then with the right shift by 16
(`hashV1Spec`); in particular `hash_v1` of the empty string equals
`0x20240400` (not `0`). -/
theorem c6_hash_v1_amended :
    (∀ s : List Nat, hashV1 s = hashV1Spec s) ∧ hashV1 [] = 0x20240400 :=
  ⟨hashV1_eq_spec, by decide⟩

/-! ## The super-block `num_blocks` formula (`src/builders.rs:92-96`)

`PdbBuilder::commit` computes

```rust
let allocated_blocks = allocator.block_count() as u32 + 1;
let fpm_gap_size = DEFAULT_BLOCK_SIZE - 2;
let num_blocks = allocated_blocks + (1 + allocated_blocks / fpm_gap_size) * 2;
```

where `allocator.block_count()` is the total number of blocks over all
stream block lists (the directory and address-map streams are allocated
into the allocator before the count is taken, builders.rs:89-90) and
`DEFAULT_BLOCK_SIZE = 4096` (msf.rs:9). -/

/-- Constant `DEFAULT_BLOCK_SIZE` from src/msf.rs. -/
def DEFAULT_BLOCK_SIZE : Nat := 4096

/-- The `num_blocks` value written into the super-block by
`PdbBuilder::commit`, as a function of the allocator's total payload
block count (src/builders.rs:92-96). -/
def commitNumBlocks (payloadBlocks : Nat) : Nat :=
  let allocatedBlocks := payloadBlocks + 1
  let fpmGapSize := DEFAULT_BLOCK_SIZE - 2
  allocatedBlocks + (1 + allocatedBlocks / fpmGapSize) * 2

/-- The claim's formula for `num_blocks`:
`1 + payload_blocks + 2 · (1 + payload_blocks / (block_size − 2))`. -/
def claimNumBlocks (payloadBlocks : Nat) : Nat :=
  1 + payloadBlocks + 2 * (1 + payloadBlocks / (DEFAULT_BLOCK_SIZE - 2))

/-- C8, counterexample: with 4093 payload blocks the code writes
`num_blocks = 4098` (it divides `payload_blocks + 1 = 4094` by the FPM
gap 4094), while the claimed identity gives `4096`. -/
theorem c8_counterexample :
    commitNumBlocks 4093 = 4098 ∧ claimNumBlocks 4093 = 4096 ∧
      ¬ commitNumBlocks 4093 = claimNumBlocks 4093 := by
  refine ⟨by decide, by decide, by decide⟩

/-- C8 (amended): for every commit the super-block `num_blocks` equals
`1 + payload_blocks + 2 · (1 + (payload_blocks + 1) / (block_size − 2))`:
the quotient is taken of the payload count *plus the super-block*, not of
the payload count alone. -/
theorem c8_num_blocks_amended (payloadBlocks : Nat) :
    commitNumBlocks payloadBlocks
      = 1 + payloadBlocks + 2 * (1 + (payloadBlocks + 1) / (DEFAULT_BLOCK_SIZE - 2)) := by
  simp only [commitNumBlocks, DEFAULT_BLOCK_SIZE]
  omega

/-! ## CodeView record framing (`src/codeview.rs`, `PrefixedRecord`)

An inner record codec is a pair `(enc, dec)` over `List Nat`; `dec`
returns the decoded value and the unconsumed remainder of its input
window, mirroring `declio`'s reader-based `Decode`. -/

/-- The padding loop of `PrefixedRecord::decode` (src/codeview.rs:34-43),
run on the bytes of the record window left over after the inner record:

* a byte in `LF_PAD0 ..= LF_PAD15` (`0xF0 ..= 0xFF`) computes
  `(byte & 0x0F) - 1` in `u8` arithmetic and skips that many further
  bytes.  For `0xF0` the subtraction underflows: the Rust code panics
  (debug overflow check, or the out-of-range `padding_buffer[..255]`
  slice in release), modelled as `.panic`;
* a zero byte is skipped;
* any other byte is the `invalid pading byte` framing error. -/
def skipPadding : List Nat → Except DecodeErr Unit
  | [] => .ok ()
  | b :: rest =>
    if 0xF0 ≤ b ∧ b ≤ 0xFF then
      if b % 16 = 0 then .error .panic
      else
        let padding := b % 16 - 1
        if rest.length < padding then .error .eof
        else skipPadding (rest.drop padding)
    else if b = 0 then skipPadding rest
    else .error .framing
termination_by l => l.length
decreasing_by
  · simp only [List.length_drop, List.length_cons]
    omega
  · simp only [List.length_cons]
    omega

/-- Model of `PrefixedRecord::encode` (src/codeview.rs:52-71) for an inner record
whose encoding is `body` and whose `encoded_size` is `size`:
emit the `u16` length `align_to(size + 2, 4) - 2`, then the body, then —
if padding is needed — the byte `padding | 0xF0` followed by
`padding - 1` zero bytes. -/
def encodePrefixed (size : Nat) (body : List Nat) : List Nat :=
  let fullSize := alignTo (size + 2) 4 - 2
  let padding := fullSize - size
  u16le fullSize ++ body ++
    (if padding = 0 then [] else (0xF0 ||| padding) :: List.replicate (padding - 1) 0)

/-- Model of `PrefixedRecord::decode` (src/codeview.rs:25-45): read a `u16`
length, take that many bytes as the record window, decode the inner
record in the window, then consume the remainder of the window as
padding. -/
def decodePrefixed (decA : List Nat → Except DecodeErr (α × List Nat)) :
    List Nat → Except DecodeErr (α × List Nat)
  | b0 :: b1 :: rest =>
    let len := b0 + 256 * b1
    if rest.length < len then .error .eof
    else
      match decA (rest.take len) with
      | .error e => .error e
      | .ok (a, leftover) =>
        match skipPadding leftover with
        | .error e => .error e
        | .ok _ => .ok (a, rest.drop len)
  | _ => .error .eof

theorem skipPadding_pad (p : Nat) (hp : 0 < p) (hp4 : p < 16) :
    skipPadding ((0xF0 ||| p) :: List.replicate (p - 1) 0) = .ok () := by
  interval_cases p <;> simp [skipPadding]

/-- Decoding a `u16le` emission recovers the value when it fits a `u16`. -/
theorem u16le_value (n : Nat) (h : n < 65536) : n % 256 + 256 * (n / 256 % 256) = n := by
  omega

/-- C1: record framing round-trip (spec §4.2, §8 property 2).  For an
inner record codec `(encA ↦ body, decA)` that is exact — the body has
length `encoded_size` and decoding the body off the front of any window
returns the record and the rest of the window — and whose size keeps the
`u16` length prefix in range:

* decoding the bytes produced by `PrefixedRecord::encode` yields the
  record again, consuming exactly the emitted bytes;
* the emitted `u16` length equals `ceil4(size + 2) − 2`;
* the total emitted record, length prefix included, is a multiple of 4
  bytes;
* when padding is needed, the first padding byte is
  `0xF0 | padding_count` and all following padding bytes are zero. -/
theorem c1_record_framing {α : Type} (size : Nat) (body : List Nat)
    (decA : List Nat → Except DecodeErr (α × List Nat)) (a : α)
    (hbody : body.length = size)
    (hdec : ∀ tail, decA (body ++ tail) = .ok (a, tail))
    (hsize : size ≤ 0xFFFE) :
    (∀ rest, decodePrefixed decA (encodePrefixed size body ++ rest) = .ok (a, rest))
      ∧ (encodePrefixed size body).take 2 = u16le (alignTo (size + 2) 4 - 2)
      ∧ (encodePrefixed size body).length % 4 = 0
      ∧ (alignTo (size + 2) 4 - 2 - size ≠ 0 →
          (encodePrefixed size body).drop (2 + size)
            = (0xF0 ||| (alignTo (size + 2) 4 - 2 - size))
                :: List.replicate (alignTo (size + 2) 4 - 2 - size - 1) 0) := by
  have hF : alignTo (size + 2) 4 = (size + 5) / 4 * 4 := rfl
  set F := alignTo (size + 2) 4 with hFdef
  have hFfacts : size + 2 ≤ F ∧ F ≤ size + 5 ∧ F % 4 = 0 ∧ F ≤ 65536 := by
    rw [hF]
    omega
  set p := F - 2 - size with hpdef
  have hp4 : p < 4 := by omega
  have hfull : F - 2 = size + p := by omega
  have hfullsize : F - 2 < 65536 := by omega
  set padL : List Nat :=
    (if p = 0 then [] else (0xF0 ||| p) :: List.replicate (p - 1) 0) with hpadL
  have hpadLen : padL.length = p := by
    rw [hpadL]
    by_cases h0 : p = 0
    · simp [h0]
    · simp only [h0, if_false, List.length_cons, List.length_replicate]
      omega
  have henc : encodePrefixed size body
      = (F - 2) % 256 :: ((F - 2) / 256 % 256) :: (body ++ padL) := by
    simp [encodePrefixed, u16le, ← hFdef, ← hpdef, hpadL]
  have hskip : skipPadding padL = .ok () := by
    rw [hpadL]
    by_cases h0 : p = 0
    · simp [h0, skipPadding]
    · simp only [h0, if_false]
      exact skipPadding_pad p (by omega) (by omega)
  have hlen : (body ++ padL).length = F - 2 := by
    simp only [List.length_append, hbody, hpadLen]
    omega
  refine ⟨?_, ?_, ?_, ?_⟩
  · intro rest
    rw [henc]
    show decodePrefixed decA
      ((F - 2) % 256 :: ((F - 2) / 256 % 256) :: ((body ++ padL) ++ rest)) = .ok (a, rest)
    simp only [decodePrefixed]
    rw [u16le_value (F - 2) hfullsize]
    have hnlt : ¬ ((body ++ padL) ++ rest).length < F - 2 := by
      simp only [List.length_append]
      omega
    rw [if_neg hnlt, List.take_left' hlen, List.drop_left' hlen, hdec padL]
    simp only [hskip]
  · rw [henc]
    rfl
  · rw [henc]
    simp only [List.length_cons, List.length_append, hbody, hpadLen]
    omega
  · intro hne
    rw [henc]
    have h2 : 2 + size = size + 1 + 1 := by omega
    rw [h2, List.drop_succ_cons, List.drop_succ_cons, ← hbody, List.drop_left, hpadL,
      if_neg hne]

/-- A three-byte inner record used to instantiate the framing theorem. -/
def constBody : List Nat := [10, 20, 30]

/-- Decoder for `constBody`: accept exactly those three bytes off the
front of the window. -/
def constDec (s : List Nat) : Except DecodeErr (Unit × List Nat) :=
  if s.take 3 = constBody then .ok ((), s.drop 3) else .error .inner

theorem c1_record_framing_witness :
    decodePrefixed constDec (encodePrefixed 3 constBody ++ [99]) = .ok ((), [99]) :=
  (c1_record_framing 3 constBody constDec () (by decide)
    (fun tail => by simp [constDec, constBody]) (by decide)).1 [99]

/-! ## Numeric leaves (`src/lib.rs`, `Integer`) -/

/-- The `Integer` numeric-leaf type (src/lib.rs:303-312).  Signed
variants carry a mathematical integer (the Rust `i16`/`i32`/`i64`
value); unsigned variants carry a natural. -/
inductive Integer where
  | i16 (v : Int)
  | i32 (v : Int)
  | i64 (v : Int)
  | u8 (v : Nat)
  | u16 (v : Nat)
  | u32 (v : Nat)
  | u64 (v : Nat)
deriving DecidableEq, Repr

/-- The two's-complement bit pattern of `v` in `w` bits, as produced by
Rust's `to_le_bytes` on a signed integer. -/
def toNatWrap (w : Nat) (v : Int) : Nat := (v % (2 ^ w : Int)).toNat

/-- The signed value of a `w`-bit two's-complement pattern, as produced
by Rust's `from_le_bytes` on a signed integer. -/
def toSigned (w n : Nat) : Int := if n < 2 ^ (w - 1) then (n : Int) else (n : Int) - 2 ^ w

/-- Model of `Integer::encode` (src/lib.rs:333-363): `I16/I32/I64/U32/U64` emit
the `LF_SHORT/LF_LONG/LF_QUADWORD/LF_ULONG/LF_UQUADWORD` prefix followed
by the little-endian value; `U8` emits `u16::from(*i)` bare; `U16` emits
the value bare — in the source there is no check against `0x8000` on
either unsigned arm. -/
def encodeInteger : Integer → List Nat
  | .i16 v => u16le 0x8001 ++ leBytes 2 (toNatWrap 16 v)
  | .i32 v => u16le 0x8003 ++ leBytes 4 (toNatWrap 32 v)
  | .i64 v => u16le 0x8009 ++ leBytes 8 (toNatWrap 64 v)
  | .u32 v => u16le 0x8004 ++ leBytes 4 v
  | .u64 v => u16le 0x800a ++ leBytes 8 v
  | .u8 v => u16le v
  | .u16 v => u16le v

/-- Model of `Integer::decode` (src/lib.rs:314-331): read a `u16`; values below
`LF_NUMERIC = 0x8000` are the value itself (`U16`); otherwise the value
selects the width; any other prefix hits `todo!`, i.e. panics. -/
def decodeInteger (s : List Nat) : Except DecodeErr (Integer × List Nat) :=
  match s with
  | b0 :: b1 :: rest =>
    let val := b0 + 256 * b1
    if val < 0x8000 then .ok (.u16 val, rest)
    else if val = 0x8000 then
      match readLe 1 rest with
      | .ok (n, tail) => .ok (.u8 n, tail)
      | .error e => .error e
    else if val = 0x8001 then
      match readLe 2 rest with
      | .ok (n, tail) => .ok (.i16 (toSigned 16 n), tail)
      | .error e => .error e
    else if val = 0x8002 then
      match readLe 2 rest with
      | .ok (n, tail) => .ok (.u16 n, tail)
      | .error e => .error e
    else if val = 0x8003 then
      match readLe 4 rest with
      | .ok (n, tail) => .ok (.i32 (toSigned 32 n), tail)
      | .error e => .error e
    else if val = 0x8004 then
      match readLe 4 rest with
      | .ok (n, tail) => .ok (.u32 n, tail)
      | .error e => .error e
    else if val = 0x8009 then
      match readLe 8 rest with
      | .ok (n, tail) => .ok (.i64 (toSigned 64 n), tail)
      | .error e => .error e
    else if val = 0x800a then
      match readLe 8 rest with
      | .ok (n, tail) => .ok (.u64 n, tail)
      | .error e => .error e
    else .error .panic
  | _ => .error .eof

theorem toNatWrap_lt (w : Nat) (v : Int) : toNatWrap w v < 2 ^ w := by
  have h2 : (0 : Int) < 2 ^ w := by positivity
  have hlt := Int.emod_lt_of_pos v h2
  have hge := Int.emod_nonneg v (by positivity : (2 : Int) ^ w ≠ 0)
  have hcast : ((2 ^ w : Nat) : Int) = (2 : Int) ^ w := by push_cast; ring
  simp only [toNatWrap]
  omega

theorem toSigned_toNatWrap (w : Nat) (hw : 1 ≤ w) (v : Int)
    (h1 : -(2 ^ (w - 1)) ≤ v) (h2 : v < 2 ^ (w - 1)) :
    toSigned w (toNatWrap w v) = v := by
  have h2w : (2 : Int) ^ w = 2 ^ (w - 1) * 2 := by
    rw [← pow_succ]
    congr 1
    omega
  have hcastw : ((2 ^ w : Nat) : Int) = (2 : Int) ^ w := by push_cast; ring
  have hcastw1 : ((2 ^ (w - 1) : Nat) : Int) = (2 : Int) ^ (w - 1) := by push_cast; ring
  have hpos : (0 : Int) < 2 ^ w := by positivity
  have hlt := Int.emod_lt_of_pos v hpos
  have hge := Int.emod_nonneg v (by positivity : (2 : Int) ^ w ≠ 0)
  have hmod : v % ((2 : Int) ^ w) = if 0 ≤ v then v else v + 2 ^ w := by
    split
    · exact Int.emod_eq_of_lt (by assumption) (by omega)
    · have hrw : (v + 2 ^ w * 1) % ((2 : Int) ^ w) = v % ((2 : Int) ^ w) :=
        Int.add_mul_emod_self_left v (2 ^ w) 1
      rw [← hrw, mul_one]
      exact Int.emod_eq_of_lt (by omega) (by omega)
  simp only [toSigned, toNatWrap, hmod]
  split <;> split <;> omega

/-- C5, counterexample: the encoder emits `U16(0x8000)` as a bare `u16`
(there is no `< 0x8000` check in `Integer::encode`), and the decoder
reads those bytes back as an `LF_CHAR` prefix and fails with
end-of-input instead of returning the value. -/
theorem c5_counterexample :
    decodeInteger (encodeInteger (.u16 0x8000)) = .error .eof ∧
      ¬ decodeInteger (encodeInteger (.u16 0x8000)) = .ok (.u16 0x8000, []) :=
  ⟨by decide, by decide⟩

/-- C5 (amended): `Integer::encode` emits the `U8` and `U16` variants as
a bare `u16` of their value unconditionally and every other variant with
its explicit width prefix; `decode(encode(x)) = x` therefore holds for
`U16` values below `0x8000` and for all in-range `I16`, `I32`, `I64`,
`U32` and `U64` values, while `U8 v` decodes back as `U16 v` and `U16`
values at or above `0x8000` do not round-trip. -/
theorem c5_numeric_leaf_amended :
    (∀ (v : Nat) (tail : List Nat), v < 0x8000 →
      decodeInteger (encodeInteger (.u16 v) ++ tail) = .ok (.u16 v, tail))
    ∧ (∀ (v : Nat) (tail : List Nat), v < 0x100 →
      decodeInteger (encodeInteger (.u8 v) ++ tail) = .ok (.u16 v, tail))
    ∧ (∀ (v : Int) (tail : List Nat), -32768 ≤ v → v < 32768 →
      decodeInteger (encodeInteger (.i16 v) ++ tail) = .ok (.i16 v, tail))
    ∧ (∀ (v : Int) (tail : List Nat), -2147483648 ≤ v → v < 2147483648 →
      decodeInteger (encodeInteger (.i32 v) ++ tail) = .ok (.i32 v, tail))
    ∧ (∀ (v : Int) (tail : List Nat), -9223372036854775808 ≤ v → v < 9223372036854775808 →
      decodeInteger (encodeInteger (.i64 v) ++ tail) = .ok (.i64 v, tail))
    ∧ (∀ (v : Nat) (tail : List Nat), v < 4294967296 →
      decodeInteger (encodeInteger (.u32 v) ++ tail) = .ok (.u32 v, tail))
    ∧ (∀ (v : Nat) (tail : List Nat), v < 18446744073709551616 →
      decodeInteger (encodeInteger (.u64 v) ++ tail) = .ok (.u64 v, tail)) := by
  refine ⟨?_, ?_, ?_, ?_, ?_, ?_, ?_⟩
  · intro v tail hv
    show decodeInteger (v % 256 :: v / 256 % 256 :: tail) = .ok (.u16 v, tail)
    simp only [decodeInteger]
    rw [u16le_value v (by omega)]
    rw [if_pos hv]
  · intro v tail hv
    show decodeInteger (v % 256 :: v / 256 % 256 :: tail) = .ok (.u16 v, tail)
    simp only [decodeInteger]
    rw [u16le_value v (by omega)]
    rw [if_pos (by omega : v < 0x8000)]
  · intro v tail h1 h2
    show decodeInteger (1 :: 128 :: (leBytes 2 (toNatWrap 16 v) ++ tail))
        = .ok (.i16 v, tail)
    simp only [decodeInteger]
    norm_num
    rw [readLe_leBytes 2 _ tail (by have := toNatWrap_lt 16 v; norm_num at this ⊢; omega)]
    show Except.ok (Integer.i16 (toSigned 16 (toNatWrap 16 v)), tail)
        = Except.ok (Integer.i16 v, tail)
    rw [toSigned_toNatWrap 16 (by norm_num) v (by norm_num; omega) (by norm_num; omega)]
  · intro v tail h1 h2
    show decodeInteger (3 :: 128 :: (leBytes 4 (toNatWrap 32 v) ++ tail))
        = .ok (.i32 v, tail)
    simp only [decodeInteger]
    norm_num
    rw [readLe_leBytes 4 _ tail (by have := toNatWrap_lt 32 v; norm_num at this ⊢; omega)]
    show Except.ok (Integer.i32 (toSigned 32 (toNatWrap 32 v)), tail)
        = Except.ok (Integer.i32 v, tail)
    rw [toSigned_toNatWrap 32 (by norm_num) v (by norm_num; omega) (by norm_num; omega)]
  · intro v tail h1 h2
    show decodeInteger (9 :: 128 :: (leBytes 8 (toNatWrap 64 v) ++ tail))
        = .ok (.i64 v, tail)
    simp only [decodeInteger]
    norm_num
    rw [readLe_leBytes 8 _ tail (by have := toNatWrap_lt 64 v; norm_num at this ⊢; omega)]
    show Except.ok (Integer.i64 (toSigned 64 (toNatWrap 64 v)), tail)
        = Except.ok (Integer.i64 v, tail)
    rw [toSigned_toNatWrap 64 (by norm_num) v (by norm_num; omega) (by norm_num; omega)]
  · intro v tail hv
    show decodeInteger (4 :: 128 :: (leBytes 4 v ++ tail)) = .ok (.u32 v, tail)
    simp only [decodeInteger]
    norm_num
    rw [readLe_leBytes 4 v tail (by norm_num; omega)]
  · intro v tail hv
    show decodeInteger (10 :: 128 :: (leBytes 8 v ++ tail)) = .ok (.u64 v, tail)
    simp only [decodeInteger]
    norm_num
    rw [readLe_leBytes 8 v tail (by norm_num; omega)]

theorem c5_numeric_leaf_witness :
    decodeInteger (encodeInteger (.u16 5) ++ [7]) = .ok (.u16 5, [7])
      ∧ decodeInteger (encodeInteger (.i32 (-2)) ++ []) = .ok (.i32 (-2), []) :=
  ⟨c5_numeric_leaf_amended.1 5 [7] (by decide),
    (c5_numeric_leaf_amended.2.2.2.1 (-2) [] (by decide) (by decide))⟩

/-- C7: evaluating the decoders at the failing inputs.  Contrary to the
claim, record decoding is not total:

* the numeric-leaf prefix `0x8005` (bytes `[0x05, 0x80]`, a `u16` at or
  above `0x8000` outside the known `LF_*` set) hits the `todo!` in
  `Integer::decode` (src/lib.rs:328) and panics instead of returning an
  `Encoding` error;
* a trailing window byte `0xF0` makes `(byte & 0x0F) - 1`
  (src/codeview.rs:38) underflow and the code panics, so `0xF0` is not
  accepted as padding — unlike `0xF1..=0xFF` and zero, which behave as
  claimed, and unlike other bytes, which are framing errors. -/
theorem c7_decode_failures :
    decodeInteger [0x05, 0x80] = .error .panic
      ∧ skipPadding [0xF0] = .error .panic
      ∧ decodePrefixed constDec [4, 0, 10, 20, 30, 0xF0] = .error .panic
      ∧ skipPadding [0xF2, 0] = .ok ()
      ∧ skipPadding [0, 0, 0] = .ok ()
      ∧ skipPadding [0x17] = .error .framing := by
  refine ⟨by decide, ?_, ?_, ?_, ?_, ?_⟩ <;>
    simp [decodePrefixed, constDec, constBody, skipPadding]

/-! ## MSF stream writer FPM-slot skipping (`src/msf.rs:149-194`)

`MsfStreamWriter::write` calls `advance_block` at the first byte of every
new block (the sink position is then block-aligned).  `advance_block`
reads the sink's absolute block index; if it is `≡ 1 (mod BLOCK_SIZE)`
it writes two zero-filled placeholder blocks and records the index after
them, otherwise it records the index as-is.  Within one stream the
pending index of each advance is the successor of the previous advance's
last written block.

Between streams, `MsfStreamWriter::finish` (src/msf.rs:167-175) pads the
sink with `rem = BLOCK_SIZE - position % BLOCK_SIZE` zero bytes.  When
the stream's byte size is an exact multiple of the block size this `rem`
is a *whole block*: an extra block is written to the sink that is
recorded in no block list, and the next stream starts one block later.
A commit writes the super-block placeholder and the two initial FPM
blocks first (src/builders.rs:55-58), so the first stream starts at
block 3; each subsequent stream starts at the previous stream's end
index, plus one when that stream was exactly block-aligned. -/

/-- One block-advance step, as an event: at pending absolute block index
`i`, the writer either records `i` as a data block, or (when
`i % BLOCK_SIZE = 1`) first emits two zero placeholder blocks over the
FPM slots and records `i + 2`. -/
inductive MsfWriteEvent where
  | data (i : Nat)
  | fpmSkip (i : Nat)
deriving DecidableEq, Repr

/-- The block index pushed to the stream's block list by an event
(src/msf.rs:163). -/
def recordedIndex : MsfWriteEvent → Nat
  | .data i => i
  | .fpmSkip i => i + 2

/-- Model of `MsfStreamWriter::advance_block` (src/msf.rs:149-165), returning the
event together with the absolute block index after the step (the
recorded block is filled by the caller before the next advance). -/
def advanceBlock (bs idx : Nat) : MsfWriteEvent × Nat :=
  if idx % bs = 1 then (.fpmSkip idx, idx + 3) else (.data idx, idx + 1)

/-- The events of one stream writing `n` consecutive blocks starting at
absolute block index `idx` (inside a stream each advance's pending index
is the successor of the previously filled block). -/
def writeTrace (bs idx : Nat) : Nat → List MsfWriteEvent
  | 0 => []
  | n + 1 =>
    let (e, idx') := advanceBlock bs idx
    e :: writeTrace bs idx' n

/-- The absolute block index after one stream writes `n` blocks. -/
def writeTraceEnd (bs idx : Nat) : Nat → Nat
  | 0 => idx
  | n + 1 => writeTraceEnd bs (advanceBlock bs idx).2 n

/-- The per-stream block-event lists of a whole commit, for streams of
the given byte lengths.  A stream of `L` bytes performs
`(L + bs - 1) / bs` block advances (`div_ceil`, as in src/lib.rs:58);
its `finish` then pads the sink to the next block boundary
(src/msf.rs:171-172), which inserts one extra unrecorded block exactly
when `L % bs = 0`. -/
def commitStreams (bs : Nat) : Nat → List Nat → List (List MsfWriteEvent)
  | _, [] => []
  | idx, L :: rest =>
    let n := (L + bs - 1) / bs
    let idx' := writeTraceEnd bs idx n + (if L % bs = 0 then 1 else 0)
    writeTrace bs idx n :: commitStreams bs idx' rest

theorem three_mod_ne_one (bs : Nat) (hbs : 3 ≤ bs) : 3 % bs ≠ 1 := by
  rcases Nat.lt_or_ge 3 bs with h | h
  · rw [Nat.mod_eq_of_lt h]
    omega
  · have hb3 : bs = 3 := by omega
    rw [hb3]
    decide

/-- The property C9 (as amended) asserts of every block-advance event:
placeholder skips happen exactly at pending indices `≡ 1 (mod bs)`, a
data block is recorded without placeholders exactly when the pending
index is `≢ 1`, and the recorded index is never `≡ 1 (mod bs)`. -/
def eventOk (bs : Nat) (e : MsfWriteEvent) : Prop :=
  (∀ i, e = .fpmSkip i → i % bs = 1)
    ∧ (∀ i, e = .data i → i % bs ≠ 1)
    ∧ recordedIndex e % bs ≠ 1

theorem advanceBlock_eventOk (bs idx : Nat) (hbs : 3 ≤ bs) :
    eventOk bs (advanceBlock bs idx).1 := by
  by_cases h1 : idx % bs = 1
  · rw [show advanceBlock bs idx = (.fpmSkip idx, idx + 3) from by simp [advanceBlock, h1]]
    refine ⟨fun i hi => ?_, fun i hi => MsfWriteEvent.noConfusion hi, ?_⟩
    · rw [← MsfWriteEvent.fpmSkip.inj hi]
      exact h1
    · show (idx + 2) % bs ≠ 1
      obtain ⟨k, hk⟩ : ∃ k, idx = bs * k + idx % bs := ⟨idx / bs, (Nat.div_add_mod idx bs).symm⟩
      have hrec : (idx + 2) % bs = 3 % bs := by
        conv_lhs => rw [hk, h1]
        rw [Nat.add_assoc, Nat.mul_add_mod]
      rw [hrec]
      exact three_mod_ne_one bs hbs
  · rw [show advanceBlock bs idx = (.data idx, idx + 1) from by simp [advanceBlock, h1]]
    refine ⟨fun i hi => MsfWriteEvent.noConfusion hi, fun i hi => ?_, h1⟩
    rw [← MsfWriteEvent.data.inj hi]
    exact h1

theorem writeTrace_events (bs : Nat) (hbs : 3 ≤ bs) :
    ∀ (n idx : Nat), ∀ e ∈ writeTrace bs idx n, eventOk bs e := by
  intro n
  induction n with
  | zero =>
    intro idx e he
    simp [writeTrace] at he
  | succ n ih =>
    intro idx e he
    have hcons : writeTrace bs idx (n + 1)
        = (advanceBlock bs idx).1 :: writeTrace bs (advanceBlock bs idx).2 n := rfl
    rw [hcons] at he
    rcases List.mem_cons.mp he with rfl | he
    · exact advanceBlock_eventOk bs idx hbs
    · exact ih _ e he

/-- When none of the `n` consecutive pending indices is `≡ 1 (mod bs)`,
no stream advance skips, and the end index is `idx + n`. -/
theorem writeTraceEnd_no_skip : ∀ (bs n idx : Nat),
    (∀ j, j < n → (idx + j) % bs ≠ 1) → writeTraceEnd bs idx n = idx + n := by
  intro bs n
  induction n with
  | zero =>
    intro idx _
    rfl
  | succ n ih =>
    intro idx h
    have h0 : idx % bs ≠ 1 := by
      have := h 0 (Nat.succ_pos n)
      simpa using this
    have hstep : (advanceBlock bs idx).2 = idx + 1 := by
      simp [advanceBlock, h0]
    show writeTraceEnd bs (advanceBlock bs idx).2 n = idx + (n + 1)
    rw [hstep, ih (idx + 1) ?_]
    · omega
    · intro j hj
      have hshift := h (j + 1) (by omega)
      rw [show idx + 1 + j = idx + (j + 1) from by omega]
      exact hshift

/-- C9, counterexample: a reachable commit records a block index
congruent to 2 modulo the block size.  The first stream is
`16769024 = 4094 · 4096` bytes long (for example one module stream with
that much debug data): it occupies blocks 3..4096 — none at an
FPM-reserved slot — and ends exactly block-aligned at block index 4097,
so its `finish` writes a whole unrecorded padding block over index 4097.
The next stream's first `advance_block` then sees pending index
`4098 ≡ 2 (mod 4096)`; the guard at src/msf.rs:155 only tests `≡ 1`, so
no placeholders are emitted and 4098 — an FPM-reserved slot — is
recorded in that stream's block list. -/
theorem c9_counterexample :
    (commitStreams 4096 3 [16769024, 100]).getD 1 [] = [MsfWriteEvent.data 4098]
      ∧ recordedIndex (MsfWriteEvent.data 4098) % 4096 = 2 := by
  have hn1 : (16769024 + 4096 - 1) / 4096 = 4094 := by norm_num
  have hmod : (16769024 : Nat) % 4096 = 0 := by norm_num
  have hend : writeTraceEnd 4096 3 4094 = 4097 := by
    have hns := writeTraceEnd_no_skip 4096 4094 3 (fun j hj => by omega)
    omega
  constructor
  · have hcons : commitStreams 4096 3 [16769024, 100]
        = writeTrace 4096 3 ((16769024 + 4096 - 1) / 4096)
          :: commitStreams 4096
            (writeTraceEnd 4096 3 ((16769024 + 4096 - 1) / 4096)
              + (if (16769024 : Nat) % 4096 = 0 then 1 else 0)) [100] := rfl
    rw [hcons, hn1, hmod, if_pos rfl, hend]
    rw [show (4097 + 1 : Nat) = 4098 from by norm_num]
    rw [List.getD_cons_succ]
    decide
  · decide

/-- C9 (amended): during any commit — the first stream starting at block
3, each later stream at the previous stream's end plus the extra
unrecorded block that `finish` writes after an exactly block-aligned
stream — whenever the next block to be written falls at an absolute
index congruent to 1 modulo the block size, the writer first emits
zero-filled placeholder blocks covering both reserved slots and only
then records the data block's index; a data block is recorded directly
exactly when the pending index is not congruent to 1; consequently no
block index appearing in any stream's block list is congruent to 1
modulo the block size.  (Unlike the original claim, an index congruent
to 2 can be recorded: `finish`'s whole-block padding after an exactly
block-aligned stream makes a pending index `≡ 2` reachable, and the
writer then records it with no placeholders — see the
counterexample.) -/
theorem c9_fpm_slot_skipping_amended (bs : Nat) (Ls : List Nat) (hbs : 3 ≤ bs) :
    ∀ tr ∈ commitStreams bs 3 Ls, ∀ e ∈ tr, eventOk bs e := by
  have hgen : ∀ (Ls : List Nat) (idx : Nat),
      ∀ tr ∈ commitStreams bs idx Ls, ∀ e ∈ tr, eventOk bs e := by
    intro Ls
    induction Ls with
    | nil =>
      intro idx tr htr
      simp [commitStreams] at htr
    | cons L rest ih =>
      intro idx tr htr
      have hcons : commitStreams bs idx (L :: rest)
          = writeTrace bs idx ((L + bs - 1) / bs)
            :: commitStreams bs
              (writeTraceEnd bs idx ((L + bs - 1) / bs)
                + (if L % bs = 0 then 1 else 0)) rest := rfl
      rw [hcons] at htr
      rcases List.mem_cons.mp htr with rfl | htr
      · exact writeTrace_events bs hbs _ idx
      · exact ih _ tr htr
  exact hgen Ls 3

theorem c9_fpm_slot_skipping_amended_witness : eventOk 4096 (MsfWriteEvent.data 3) :=
  c9_fpm_slot_skipping_amended 4096 [100] (by norm_num)
    (writeTrace 4096 3 ((100 + 4096 - 1) / 4096)) (by decide) (.data 3) (by decide)

/-! ## MSF logical stream seek (`src/msf.rs:101-125`) -/

/-- A stream layout: an ordered block-index list and a byte length
(src/msf.rs:39-43). -/
structure MsfStreamLayout where
  blocks : List Nat
  byteSize : Nat

/-- Model of `MsfStream::seek` repositioning to an absolute target position `pos`
(src/msf.rs:117-123): the cursor becomes `pos` and the underlying source
is seeked to `blocks[pos / block_size] * block_size + pos % block_size`.
The block list is indexed before any bounds check; an out-of-range index
panics, modelled as `none`.  Returns the new cursor position and the
underlying file position. -/
def msfSeekTo (layout : MsfStreamLayout) (bs pos : Nat) : Option (Nat × Nat) :=
  match layout.blocks.get? (pos / bs) with
  | some b => some (pos, b * bs + pos % bs)
  | none => none

/-- Model of `MsfStream::seek` with `SeekFrom::End(offset)` (src/msf.rs:110-112):
the target position is `byte_size + offset` (as `u32`), then the common
repositioning runs. -/
def msfSeekEnd (layout : MsfStreamLayout) (bs : Nat) (offset : Int) : Option (Nat × Nat) :=
  msfSeekTo layout bs ((layout.byteSize + offset).toNat)

/-- C10: seeking to target position `pos` is well-defined whenever
`pos / block_size` is strictly below the number of blocks in the layout,
and then repositions the cursor to `pos` and the underlying source to
`blocks[pos / block_size] · block_size + pos % block_size`.  The
precondition is necessary: on a stream of byte size 4096 with one block
(an exact multiple of the block size), `SeekFrom::End(0)` computes
position 4096, indexes `blocks[1]` out of range, and panics. -/
theorem c10_stream_seek :
    (∀ (blocks : List Nat) (size bs pos : Nat), pos / bs < blocks.length →
      msfSeekTo ⟨blocks, size⟩ bs pos
        = some (pos, blocks.getD (pos / bs) 0 * bs + pos % bs))
      ∧ msfSeekEnd ⟨[3], 4096⟩ 4096 0 = none := by
  constructor
  · intro blocks size bs pos h
    have hb : blocks[pos / bs]? = some blocks[pos / bs] := List.getElem?_eq_getElem h
    simp [msfSeekTo, List.get?_eq_getElem?, hb, List.getD_eq_getElem?_getD]
  · decide

theorem c10_stream_seek_witness :
    msfSeekTo ⟨[7, 9], 4096⟩ 4096 5000 = some (5000, 9 * 4096 + 5000 % 4096) :=
  c10_stream_seek.1 [7, 9] 8192 4096 5000 (by decide)

/-! ## Strings-stream bucket insertion (`src/strings.rs:51-77`)

`StringsBuilder::build` allocates `ids = vec![0; buckets]` and, for each
`(hash, offset)` pair, probes `slot = (hash + i) % buckets` for
`i in 0..buckets`; the arm that stores is guarded by `*el != 0` — the
vacancy test is inverted, so a slot is written only when it is already
non-zero.  The bucket count comes from `get_bucket_count` (its own unit
test gives `get_bucket_count(1) = 2`); the insertion behaviour below is
proved for every bucket count. -/

/-- The `for i in 0..buckets` probe loop for one `(hash, offset)` pair
(src/strings.rs:57-66), over the remaining probe indices. -/
def probeGo (buckets hash off : Nat) : List Nat → List Nat → List Nat
  | [], ids => ids
  | i :: is, ids =>
    let slot := (hash + i) % buckets
    match ids.get? slot with
    | some el => if el ≠ 0 then ids.set slot off else probeGo buckets hash off is ids
    | none => probeGo buckets hash off is ids

/-- The bucket array emitted by `StringsBuilder::build`: start from all
zeros and run the probe loop for each `(hash, offset)` pair in
insertion order. -/
def stringsBuildIds (buckets : Nat) (pairs : List (Nat × Nat)) : List Nat :=
  pairs.foldl (fun ids p => probeGo buckets p.1 p.2 (List.range buckets) ids)
    (List.replicate buckets 0)

/-- Model of `StringsBuilder::add` (src/strings.rs:43-49) acting on the state
`(bytes, offsets)`: the offset recorded for a string is the length of
the byte buffer before the string and its NUL are appended. -/
def stringsAdd (st : List Nat × List (Nat × Nat)) (s : List Nat) :
    List Nat × List (Nat × Nat) :=
  (st.1 ++ s ++ [0], st.2 ++ [(hashV1 s, st.1.length)])

/-- The initial `StringsBuilder` state (src/strings.rs:79-86): the byte
buffer holds a single NUL, so every added string gets offset `≥ 1`. -/
def stringsBuilderInit : List Nat × List (Nat × Nat) := ([0], [])

theorem probeGo_zero (buckets hash off : Nat) (is : List Nat) (ids : List Nat)
    (hz : ∀ x ∈ ids, x = 0) : probeGo buckets hash off is ids = ids := by
  induction is with
  | nil => rfl
  | cons i is ih =>
    show (match ids.get? ((hash + i) % buckets) with
      | some el => if el ≠ 0 then ids.set ((hash + i) % buckets) off
          else probeGo buckets hash off is ids
      | none => probeGo buckets hash off is ids) = ids
    cases hg : ids.get? ((hash + i) % buckets) with
    | none => exact ih
    | some el =>
      have he : el = 0 := hz el (List.get?_mem hg)
      simp only [he, ne_eq, not_true_eq_false, if_false]
      exact ih

/-- No pair is ever stored: the all-zero bucket array is a fixed point
of the insertion pass, for every bucket count and every input. -/
theorem stringsBuildIds_zero (buckets : Nat) (pairs : List (Nat × Nat)) :
    stringsBuildIds buckets pairs = List.replicate buckets 0 := by
  have hgen : ∀ (ps : List (Nat × Nat)) (ids : List Nat), (∀ x ∈ ids, x = 0) →
      ps.foldl (fun ids p => probeGo buckets p.1 p.2 (List.range buckets) ids) ids = ids := by
    intro ps
    induction ps with
    | nil => intro ids _; rfl
    | cons p ps ih =>
      intro ids hz
      simp only [List.foldl_cons]
      rw [probeGo_zero _ _ _ _ ids hz]
      exact ih ids hz
  exact hgen pairs _ (fun x hx => List.eq_of_mem_replicate hx)

/-- C2: evaluating `StringsBuilder::build` at the failing input.  The
vacancy test of the probe loop is inverted (`*el != 0` guards the
store), so no offset is ever written: for every input and bucket count
the emitted bucket array is all zeros; in particular, after adding the
single string `"a"` (offset 1, `get_bucket_count(1) = 2` buckets), the
bucket array is `[0, 0]` and the string's offset 1 does not appear in
it, so the probe-sequence lookup cannot find it. -/
theorem c2_strings_insertion :
    (∀ (buckets : Nat) (pairs : List (Nat × Nat)),
      stringsBuildIds buckets pairs = List.replicate buckets 0)
      ∧ (stringsAdd stringsBuilderInit [97]).2 = [(hashV1 [97], 1)]
      ∧ stringsBuildIds 2 [(hashV1 [97], 1)] = [0, 0]
      ∧ ¬ 1 ∈ stringsBuildIds 2 [(hashV1 [97], 1)] :=
  ⟨stringsBuildIds_zero, by decide, by decide, by decide⟩

/-! ## Named streams table (`src/builders.rs:307-337`, `src/info.rs:52-72`)

`InfoBuilder::commit` writes the name buffer and a `Table` whose entries
are built by

```rust
let mut offset = 0;
for (index, name) in self.named_streams {
    offset += name.len() as u32 + 1;
    offsets.push((u16::from(index).into(), offset));
    ...
}
```

— the pair pushed is `(key = stream index, val = offset)`, and `offset`
has already been advanced past the name, so `val` is the offset one past
the name's NUL.  The reader (`NamedStreams::iter`, src/info.rs:61-67)
interprets each entry the other way around: `kv.key` as the byte offset
of a NUL-terminated name in the buffer and `kv.val` as the stream
index.  Names are modelled as their byte lists (the inputs considered
are ASCII, so the reader's UTF-8 check always passes). -/

/-- The name buffer written by `InfoBuilder::commit`: the NUL-terminated
names in order. -/
def namedStreamsBuffer (streams : List (Nat × List Nat)) : List Nat :=
  streams.foldl (fun buf s => buf ++ s.2 ++ [0]) []

/-- The table entries written by `InfoBuilder::commit`
(src/builders.rs:323-330): `offset` is advanced before the push, and the
pair is `(stream index, offset)`. -/
def namedStreamsEntries : List (Nat × List Nat) → Nat → List (Nat × Nat)
  | [], _ => []
  | (index, name) :: t, off =>
    let off' := off + name.length + 1
    (index, off') :: namedStreamsEntries t off'

/-- Model of `self.name_buffer[kv.key as usize..]` followed by
`.split(|&n| n == 0).next()` (src/info.rs:63): the bytes from `off` up
to the first NUL; indexing past the end of the buffer panics. -/
def readName (buf : List Nat) (off : Nat) : Except DecodeErr (List Nat) :=
  if off ≤ buf.length then .ok ((buf.drop off).takeWhile (fun b => ¬ b = 0))
  else .error .panic

/-- Model of `NamedStreams::get` (src/info.rs:69-71) over the persisted buffer
and entries: find the first entry whose name at offset `kv.key` equals
the probed name and return `kv.val as u16`. -/
def namedStreamsGet (buf : List Nat) (entries : List (Nat × Nat)) (name : List Nat) :
    Except DecodeErr (Option Nat) :=
  match entries with
  | [] => .ok none
  | (k, v) :: rest =>
    match readName buf k with
    | .error e => .error e
    | .ok nm => if nm = name then .ok (some (v % 65536)) else namedStreamsGet buf rest name

/-- The bytes of the name `"/names"`. -/
def namesStr : List Nat := [47, 110, 97, 109, 101, 115]

/-- C3: evaluating the writer and reader at the failing input.  For the
single named stream `"/names"` registered with stream index 5, the
writer emits the entry `(key = 5, val = 7)` — the key is the stream
index and the value the end offset, the reverse of the claimed (and
reader-assumed) layout — so reading the committed table back and looking
up `"/names"` finds the one-byte name `"s"` at buffer offset 5 and
returns `none` instead of stream index 5. -/
theorem c3_named_streams :
    namedStreamsBuffer [(5, namesStr)] = namesStr ++ [0]
      ∧ namedStreamsEntries [(5, namesStr)] 0 = [(5, 7)]
      ∧ namedStreamsGet (namedStreamsBuffer [(5, namesStr)])
          (namedStreamsEntries [(5, namesStr)] 0) namesStr = .ok none
      ∧ readName (namedStreamsBuffer [(5, namesStr)]) 5 = .ok [115] :=
  ⟨by decide, by decide, by decide, by decide⟩

/-! ## Symbol-map bucket construction (`src/symbol_map.rs:37-85`,
`src/utils.rs:63-119`)

`SymbolMap::from_symbols` takes a `BTreeMap<SymbolOffset, S>` (iterated
in ascending offset order, modelled as an ascending association list of
`(offset, name)` with names as ASCII byte lists), tallies
`bucket_starts[hash_v1(name) % 4096] += 1`, pushes one record
`(offset + 1, ref_count = 1)` per symbol in iteration order, runs the
in-place prefix-sum pass, and then sorts each `bucket_starts`-delimited
subrange of `hash_records` with a comparator that resolves each record's
name via `mapping.get(&lhs.offset())` — where `lhs.offset()` is the
*stored* offset `original + 1`, a key that is not in the mapping. -/

/-- Model of `char::to_ascii_lowercase` on a code point. -/
def toLowerAscii (c : Nat) : Nat := if 65 ≤ c ∧ c ≤ 90 then c + 32 else c

/-- Model of `CaseInsensitiveChar::cmp` (src/utils.rs:110-119): equal when the
characters match ignoring ASCII case, otherwise the *raw* character
comparison. -/
def ciCharCmp (a b : Nat) : Ordering :=
  if toLowerAscii a = toLowerAscii b then .eq else compare a b

/-- Model of `CaseInsensitiveStr::cmp` (src/utils.rs:82-89): lexicographic over
`CaseInsensitiveChar`. -/
def ciStrCmp : List Nat → List Nat → Ordering
  | [], [] => .eq
  | [], _ :: _ => .lt
  | _ :: _, [] => .gt
  | a :: as, b :: bs => (ciCharCmp a b).then (ciStrCmp as bs)

/-- Rust `Option<CaseInsensitiveStr>` ordering (`None < Some`). -/
def optNameCmp : Option (List Nat) → Option (List Nat) → Ordering
  | none, none => .eq
  | none, some _ => .lt
  | some _, none => .gt
  | some a, some b => ciStrCmp a b

/-- Model of `BTreeMap::get` over the association list. -/
def assocGet (m : List (Nat × List Nat)) (k : Nat) : Option (List Nat) :=
  (m.find? (fun p => p.1 = k)).map Prod.snd

/-- The sort comparator of `from_symbols` (src/symbol_map.rs:62-74) on
hash records `(stored_offset, ref_count)`: compare the names found at
the records' *stored* offsets (`original + 1`), then the stored
offsets. -/
def recordCmp (m : List (Nat × List Nat)) (l r : Nat × Nat) : Ordering :=
  (optNameCmp (assocGet m l.1) (assocGet m r.1)).then (compare l.1 r.1)

/-- Stable insertion into a sorted list: `x` goes before the first
element it does not strictly follow. -/
def insertOrd (cmp : α → α → Ordering) (x : α) : List α → List α
  | [] => [x]
  | y :: ys => if cmp x y = .gt then y :: insertOrd cmp x ys else x :: y :: ys

/-- Stable sort by comparator (the model of `slice::sort_by`). -/
def sortByOrd (cmp : α → α → Ordering) : List α → List α
  | [] => []
  | x :: xs => insertOrd cmp x (sortByOrd cmp xs)

/-- The in-place prefix-sum pass over `bucket_starts`
(src/symbol_map.rs:51-56): each entry becomes itself plus the sum of the
entries before it. -/
def prefixSumAcc : List Nat → Nat → List Nat
  | [], _ => []
  | x :: t, sum => (x + sum) :: prefixSumAcc t (sum + x)

/-- One step of the tally pass (src/symbol_map.rs:44-49):
`bucket_starts[hash_v1(name) % 4096] += 1`. -/
def tallyStep (bs : List Nat) (p : Nat × List Nat) : List Nat :=
  bs.set (hashV1 p.2 % 4096) (bs.getD (hashV1 p.2 % 4096) 0 + 1)

/-- The tally pass over the `[u32; 4096]` of bucket counts. -/
def tallyBuckets (m : List (Nat × List Nat)) : List Nat :=
  m.foldl tallyStep (List.replicate 4096 0)

/-- Model of `hash_records[*start as usize..end as usize].sort_by(..)`: sort the
subrange `[s, e)` in place. -/
def sortRange (cmp : α → α → Ordering) (recs : List α) (s e : Nat) : List α :=
  recs.take s ++ sortByOrd cmp ((recs.drop s).take (e - s)) ++ recs.drop e

/-- The `while let [start, tail @ ..]` pass over the prefix-summed
`bucket_starts` (src/symbol_map.rs:58-77): each range end is the next
entry, or `mapping.len()` for the last one. -/
def rangesLoop (cmp : α → α → Ordering) (len : Nat) : List Nat → List α → List α
  | [], recs => recs
  | start :: tail, recs =>
    let e := tail.headD len
    rangesLoop cmp len tail (sortRange cmp recs start e)

/-- The `hash_records` array produced by `SymbolMap::from_symbols`
(stored offsets are the original symbol offsets plus one). -/
def fromSymbolsRecords (m : List (Nat × List Nat)) : List (Nat × Nat) :=
  let starts := prefixSumAcc (tallyBuckets m) 0
  rangesLoop (recordCmp m) m.length starts (m.map (fun p => (p.1 + 1, 1)))

/-- The claim's ordering on names: character-by-character under ASCII
case folding (non-ASCII code points are unchanged by the fold and so
compare by value). -/
def foldedStrCmp (a b : List Nat) : Ordering :=
  compare (a.map toLowerAscii) (b.map toLowerAscii)

theorem sortByOrd_of_pairwise (cmp : α → α → Ordering) (l : List α)
    (h : List.Pairwise (fun a b => cmp a b ≠ .gt) l) : sortByOrd cmp l = l := by
  induction l with
  | nil => rfl
  | cons x xs ih =>
    show insertOrd cmp x (sortByOrd cmp xs) = x :: xs
    rw [ih h.tail]
    cases xs with
    | nil => rfl
    | cons y ys =>
      show (if cmp x y = .gt then y :: insertOrd cmp x ys else x :: y :: ys) = _
      rw [if_neg (List.rel_of_pairwise_cons h (List.mem_cons_self y ys))]

theorem sortRange_of_pairwise (cmp : α → α → Ordering) (recs : List α) (s e : Nat)
    (hse : s ≤ e) (h : List.Pairwise (fun a b => cmp a b ≠ .gt) recs) :
    sortRange cmp recs s e = recs := by
  have hmid : List.Pairwise (fun a b => cmp a b ≠ .gt) ((recs.drop s).take (e - s)) :=
    h.sublist ((List.take_sublist _ _).trans (List.drop_sublist _ _))
  rw [sortRange, sortByOrd_of_pairwise _ _ hmid]
  have hdd : recs.drop e = (recs.drop s).drop (e - s) := by
    rw [List.drop_drop]
    congr 1
    omega
  rw [hdd, List.append_assoc, List.take_append_drop, List.take_append_drop]

theorem rangesLoop_of_pairwise (cmp : α → α → Ordering) (recs : List α) (len : Nat)
    (h : List.Pairwise (fun a b => cmp a b ≠ .gt) recs) :
    ∀ starts : List Nat, List.Chain' (· ≤ ·) starts → (∀ x ∈ starts, x ≤ len) →
      len ≤ recs.length ∨ True →
      rangesLoop cmp len starts recs = recs := by
  intro starts
  induction starts with
  | nil =>
    intro _ _ _
    rfl
  | cons start tail ih =>
    intro hchain hle _
    have hse : start ≤ tail.headD len := by
      cases tail with
      | nil => exact hle start (List.mem_cons_self _ _)
      | cons t0 _ => exact (List.chain'_cons.mp hchain).1
    show rangesLoop cmp len tail (sortRange cmp recs start (tail.headD len)) = recs
    rw [sortRange_of_pairwise cmp recs _ _ hse h]
    exact ih (List.Chain'.tail hchain) (fun x hx => hle x (List.mem_cons_of_mem _ hx))
      (Or.inr trivial)

theorem chain_prefixSumAcc : ∀ (l : List Nat) (s : Nat),
    List.Chain' (· ≤ ·) (prefixSumAcc l s)
  | [], _ => List.chain'_nil
  | [a], s => by simp [prefixSumAcc]
  | a :: b :: t, s => by
    show List.Chain' (· ≤ ·) ((a + s) :: (b + (s + a)) :: prefixSumAcc t (s + a + b))
    refine List.chain'_cons.mpr ⟨by omega, ?_⟩
    exact chain_prefixSumAcc (b :: t) (s + a)

theorem mem_prefixSumAcc_le : ∀ (l : List Nat) (s : Nat), ∀ x ∈ prefixSumAcc l s,
    x ≤ s + l.sum := by
  intro l
  induction l with
  | nil => intro s x hx; cases hx
  | cons a t ih =>
    intro s x hx
    rcases List.mem_cons.mp hx with rfl | hx
    · simp only [List.sum_cons]
      omega
    · have := ih (s + a) x hx
      simp only [List.sum_cons]
      omega

theorem sum_set_incr : ∀ (bs : List Nat) (b : Nat), b < bs.length →
    (bs.set b (bs.getD b 0 + 1)).sum = bs.sum + 1 := by
  intro bs
  induction bs with
  | nil => intro b hb; cases hb
  | cons x t ih =>
    intro b hb
    cases b with
    | zero => simp [List.set, List.sum_cons, Nat.add_assoc, Nat.add_comm, Nat.add_left_comm]
    | succ b =>
      have hb' : b < t.length := by simpa using hb
      simp only [List.set, List.getD_cons_succ, List.sum_cons, ih b hb']
      omega

theorem tallyBuckets_facts (m : List (Nat × List Nat)) :
    (tallyBuckets m).length = 4096 ∧ (tallyBuckets m).sum = m.length := by
  have hgen : ∀ (ms : List (Nat × List Nat)) (bs : List Nat), bs.length = 4096 →
      (ms.foldl tallyStep bs).length = 4096
        ∧ (ms.foldl tallyStep bs).sum = bs.sum + ms.length := by
    intro ms
    induction ms with
    | nil =>
      intro bs hlen
      exact ⟨hlen, by simp⟩
    | cons p ms ih =>
      intro bs hlen
      have hb : hashV1 p.2 % 4096 < bs.length := by
        rw [hlen]
        exact Nat.mod_lt _ (by norm_num)
      have hset : (tallyStep bs p).length = 4096 := by
        rw [tallyStep, List.length_set, hlen]
      obtain ⟨ih1, ih2⟩ := ih (tallyStep bs p) hset
      rw [List.foldl_cons]
      refine ⟨ih1, ?_⟩
      rw [ih2, tallyStep, sum_set_incr bs _ hb]
      simp only [List.length_cons]
      omega
  have hz : (List.replicate 4096 (0 : Nat)).length = 4096 := List.length_replicate 4096 0
  have := hgen m (List.replicate 4096 0) hz
  refine ⟨this.1, ?_⟩
  show (m.foldl tallyStep (List.replicate 4096 0)).sum = m.length
  rw [this.2, List.sum_replicate, smul_zero, Nat.zero_add]

/-- The byte string `"k"`. -/
def kName : List Nat := [107]

/-- The byte string `"ap"`; `hash_v1("k") % 4096 = hash_v1("ap") % 4096
= 1099`, so the two names share a bucket. -/
def apName : List Nat := [97, 112]

/-- The failing globals mapping `{0 ↦ "k", 100 ↦ "ap"}` (ascending
offset order, as `BTreeMap` iteration yields it). -/
def failingMapping : List (Nat × List Nat) := [(0, kName), (100, apName)]

/-- C4: evaluating `from_symbols` at the failing input — the globals
mapping `{0 ↦ "k", 100 ↦ "ap"}`, whose two names collide in bucket
1099.  The claim's ordering (case-folded names, then offset) puts the
`"ap"` record (stored offset 101) before the `"k"` record (stored
offset 1).  The code instead leaves the records in offset order,
because the comparator looks the names up at the *stored* offsets 1 and
101, which are not keys of the mapping: both lookups return `None`, the
name comparison is always `Equal`, and the sort falls through to the
stored-offset tie-break. -/
theorem c4_symbol_map_ordering :
    hashV1 kName % 4096 = hashV1 apName % 4096
      ∧ fromSymbolsRecords failingMapping = [(1, 1), (101, 1)]
      ∧ foldedStrCmp apName kName = .lt
      ∧ assocGet failingMapping 1 = none
      ∧ assocGet failingMapping 101 = none
      ∧ recordCmp failingMapping (1, 1) (101, 1) = .lt := by
  refine ⟨by decide, ?_, by decide, by decide, by decide, by decide⟩
  show rangesLoop (recordCmp failingMapping) failingMapping.length
      (prefixSumAcc (tallyBuckets failingMapping) 0)
      (failingMapping.map (fun p => (p.1 + 1, 1))) = [(1, 1), (101, 1)]
  have hmap : failingMapping.map (fun p => (p.1 + 1, 1)) = [(1, 1), (101, 1)] := by decide
  rw [hmap]
  have hpair : List.Pairwise (fun a b => recordCmp failingMapping a b ≠ .gt)
      [(1, 1), (101, 1)] := by
    refine List.pairwise_cons.mpr ⟨?_, List.pairwise_singleton _ _⟩
    intro b hb
    rcases List.mem_singleton.mp hb with rfl
    decide
  refine rangesLoop_of_pairwise _ _ _ hpair _ (chain_prefixSumAcc _ 0) ?_ (Or.inr trivial)
  intro x hx
  have := mem_prefixSumAcc_le (tallyBuckets failingMapping) 0 x hx
  rw [(tallyBuckets_facts failingMapping).2] at this
  simpa using this

end PdbSdk
